import Mathlib

set_option maxHeartbeats 1000000

/-!
Verification of the tool-call orchestration engine of dexter-js
(`ToolExecutor` in the tool executor module): the selector
(`selectTools` / `extractToolCalls`), the retry helper
(`invokeWithRetries`) and the bounded worker pool of `executeTools`.

The execution of `executeTools` is embedded as a small-step transition
system: a step either lets an idle worker claim the next index of the
shared counter (`nextIndex++`, one synchronous block in the source) or
lets a worker that is awaiting a capability invocation observe the
invocation's outcome and run the rest of its loop body.  A schedule is a
list of worker ids; quantifying over schedules covers every interleaving
of the single-threaded event loop.  Observer callbacks may throw; a
throwing callback is recorded in the environment, and an exception that
escapes the worker body moves the worker to an `aborted` phase (its
promise rejected, so `Promise.all` rejects).
-/

deriving instance DecidableEq for Except

namespace Dexter

/-- Lifecycle states of one tool call (the `status` field of `ToolCallStatus`). -/
inductive Status
  | pending
  | running
  | completed
  | failed
deriving DecidableEq

/-- One entry of `task.toolCalls`: capability name, argument mapping, status. -/
structure ToolCall where
  tool : String
  args : List (String × String)
  status : Status
deriving DecidableEq

/-- Projection that forgets the (mutable) status field. -/
def stripStatus (c : ToolCall) : String × List (String × String) :=
  (c.tool, c.args)

/-- Element of a call list at an index (JS array access `task.toolCalls[idx]`). -/
def callAt (cs : List ToolCall) (i : Nat) : ToolCall :=
  cs.getD i ⟨"", [], Status.pending⟩

/-- Whether `pat` occurs at the head of `s` (character lists). -/
def hasPre : List Char → List Char → Bool
  | [], _ => true
  | _ :: _, [] => false
  | a :: as, b :: bs => a == b && hasPre as bs

/-- Whether `pat` occurs anywhere inside `s` (character lists). -/
def hasSub : List Char → List Char → Bool
  | [], pat => pat.isEmpty
  | b :: bs, pat => hasPre pat (b :: bs) || hasSub bs pat

/-- JS `String.prototype.includes`. -/
def strContains (s pat : String) : Bool :=
  hasSub s.toList pat.toList

/-- The transient-throttle signature test of `invokeWithRetries`:
`msg.includes('429') || msg.includes('Too Many Requests') || msg.includes('Failed to get crumb')`. -/
def isTooMany (msg : String) : Bool :=
  strContains msg "429" || strContains msg "Too Many Requests" ||
    strContains msg "Failed to get crumb"

/-- Outcome of one `tool.invoke(args)` attempt: a result or a thrown error
(identified with its stringified message, as `String(err || '')` does). -/
inductive InvokeOutcome
  | ok (result : String)
  | err (msg : String)
deriving DecidableEq

/-- Whether an attempt outcome is a throttle-signature failure. -/
def throttleErr : InvokeOutcome → Bool
  | .ok _ => false
  | .err m => isTooMany m

/-- Result of the whole retry loop: the value returned or error thrown, the
number of `tool.invoke` calls made, and the backoff delays (ms) slept before
each retry, in order. -/
structure RetryResult where
  result : Except String String
  invocations : Nat
  delays : List Nat
deriving DecidableEq

/-- The loop body of `invokeWithRetries`.  `attempt` is the 1-based attempt
counter of the source; `remaining` is the number of loop iterations still
allowed (`maxAttempts - attempt + 1`), so `remaining = 1` exactly when
`attempt === maxAttempts`.  The source retries iff the error matches the
throttle signature and `attempt !== maxAttempts`
(`if (!isTooMany || attempt === maxAttempts) throw err`); the delay before a
retry is `Math.pow(2, attempt) * 1000` plus the jitter
`Math.floor(Math.random() * 500)`.  The `remaining = 0` case models the loop
falling through, which cannot happen when started with `remaining ≥ 1`. -/
def invokeFrom (outcome : Nat → InvokeOutcome) (jitter : Nat → Nat) :
    Nat → Nat → RetryResult
  | _, 0 => ⟨Except.error "", 0, []⟩
  | attempt, r + 1 =>
    match outcome attempt with
    | .ok res => ⟨Except.ok res, 1, []⟩
    | .err m =>
      if isTooMany m && !(r == 0) then
        let rest := invokeFrom outcome jitter (attempt + 1) r
        ⟨rest.result, rest.invocations + 1,
          (2 ^ attempt * 1000 + jitter attempt) :: rest.delays⟩
      else ⟨Except.error m, 1, []⟩

/-- `invokeWithRetries` with `maxAttempts = 3`: starts at `attempt = 1` with
three iterations allowed.  `outcome a` is what the capability's `invoke` does
on the `a`-th attempt; `jitter a` is the sampled `Math.floor(Math.random()*500)`
of that attempt. -/
def invokeWithRetries (outcome : Nat → InvokeOutcome) (jitter : Nat → Nat) :
    RetryResult :=
  invokeFrom outcome jitter 1 3

/-- Observer events, in the order the callbacks are invoked. -/
inductive Event
  | update (taskId : String) (idx : Nat) (s : Status)
  | error (taskId : String) (idx : Nat) (tool : String)
      (args : List (String × String)) (msg : String)
deriving DecidableEq

/-- The call index an event reports about. -/
def Event.index : Event → Nat
  | .update _ i _ => i
  | .error _ i _ _ _ => i

/-- One `contextManager.saveContext(tool, args, result, undefined, queryId)` call. -/
structure CtxWrite where
  tool : String
  args : List (String × String)
  result : String
  queryId : String
deriving DecidableEq

/-- Control position of one worker of the pool. -/
inductive Phase
  | idle
  | invoking (idx : Nat)
  | done
  | aborted
deriving DecidableEq

/-- A worker promise that has settled (resolved or rejected). -/
def isSettled : Phase → Bool
  | .done => true
  | .aborted => true
  | _ => false

/-- A worker currently processing a claimed call. -/
def isInvoking : Phase → Bool
  | .invoking _ => true
  | _ => false

/-- Fixed environment of one `executeTools` run: the task and correlation ids,
the registered tool names (`toolMap` keys), the behavior of each capability on
each attempt, the sampled jitters, and whether each observer callback
invocation throws (with the stringified exception used when the completed
update throws and the catch branch reports it). -/
structure Env where
  taskId : String
  queryId : String
  registry : List String
  invokeOutcome : Nat → Nat → InvokeOutcome
  jitter : Nat → Nat → Nat
  cbUpdateThrows : Nat → Status → Bool
  cbErrorThrows : Nat → Bool
  cbExnMsg : String

/-- Observers that never throw (the normal operating assumption). -/
def goodEnv (env : Env) : Prop :=
  (∀ i s, env.cbUpdateThrows i s = false) ∧ ∀ i, env.cbErrorThrows i = false

/-- The retry loop run for call `i` against its capability's behavior. -/
def retryAt (env : Env) (i : Nat) : RetryResult :=
  invokeWithRetries (env.invokeOutcome i) (env.jitter i)

/-- Shared state of an `executeTools` run: the live call list, the claim
counter, the aggregate-success flag, the worker phases, plus the observable
histories (callback trace, context-store writes) and two ghost logs recording
every value the counter handed out and every index whose capability invocation
was started. -/
structure ExecState where
  calls : List ToolCall
  nextIndex : Nat
  allSucceeded : Bool
  phases : List Phase
  trace : List Event
  writes : List CtxWrite
  claimLog : List Nat
  invokeLog : List Nat

/-- Append an observer event to the trace. -/
def emit (e : Event) (st : ExecState) : ExecState :=
  { st with trace := st.trace ++ [e] }

/-- Replace the phase of worker `w`. -/
def setPhase (w : Nat) (p : Phase) (st : ExecState) : ExecState :=
  { st with phases := st.phases.set w p }

/-- Overwrite the status field of the call at index `i` (the only mutation
`executeTools` performs on an entry). -/
def setStatus : List ToolCall → Nat → Status → List ToolCall
  | [], _, _ => []
  | c :: cs, 0, s => ⟨c.tool, c.args, s⟩ :: cs
  | c :: cs, n + 1, s => c :: setStatus cs n s

/-- The catch branch of the worker body: clear the aggregate flag, set the
call's status to `failed`, fire `onToolCallUpdate(taskId, idx, 'failed')` and
then `onToolCallError(taskId, idx, tool, args, error)`.  An exception thrown
by either callback escapes the worker (phase `aborted`); otherwise the worker
returns to the top of its loop. -/
def handleFailure (env : Env) (w i : Nat) (tool : String)
    (args : List (String × String)) (msg : String) (st : ExecState) : ExecState :=
  let st1 : ExecState :=
    { st with allSucceeded := false, calls := setStatus st.calls i Status.failed }
  let st2 := emit (.update env.taskId i Status.failed) st1
  if env.cbUpdateThrows i Status.failed then setPhase w Phase.aborted st2
  else
    let st3 := emit (.error env.taskId i tool args msg) st2
    if env.cbErrorThrows i then setPhase w Phase.aborted st3
    else setPhase w Phase.idle st3

/-- The synchronous block at the top of the worker loop: `const idx =
nextIndex++` (the counter is bumped even by the exiting claim), exit if the
claimed index is out of range, otherwise fire the `running` update and resolve
the capability by name — a missing capability throws `Tool not found: <tool>`
into the catch branch; a found capability moves the worker to awaiting
`invokeWithRetries`. -/
def claimStep (env : Env) (w : Nat) (st : ExecState) : ExecState :=
  let i := st.nextIndex
  let st0 : ExecState :=
    { st with nextIndex := i + 1, claimLog := st.claimLog ++ [i] }
  if i < st0.calls.length then
    let st1 := emit (.update env.taskId i Status.running) st0
    if env.cbUpdateThrows i Status.running then setPhase w Phase.aborted st1
    else
      let c := callAt st1.calls i
      if env.registry.contains c.tool then setPhase w (Phase.invoking i) st1
      else
        handleFailure env w i c.tool c.args
          (String.append "Tool not found: " c.tool) st1
  else setPhase w Phase.done st0

/-- The continuation after `await invokeWithRetries(...)` for call `i`: on a
returned result, save it to the context store, set the status to `completed`
and fire the `completed` update (an exception from that callback is caught by
the surrounding `catch`, which then reports the observer's own exception); on
a thrown error, run the catch branch. -/
def finishStep (env : Env) (w i : Nat) (st : ExecState) : ExecState :=
  let c := callAt st.calls i
  let st0 : ExecState := { st with invokeLog := st.invokeLog ++ [i] }
  match (retryAt env i).result with
  | .ok res =>
    let st1 : ExecState :=
      { st0 with writes := st0.writes ++ [⟨c.tool, c.args, res, env.queryId⟩],
                 calls := setStatus st0.calls i Status.completed }
    let st2 := emit (.update env.taskId i Status.completed) st1
    if env.cbUpdateThrows i Status.completed then
      handleFailure env w i c.tool c.args env.cbExnMsg st2
    else setPhase w Phase.idle st2
  | .error m => handleFailure env w i c.tool c.args m st0

/-- One scheduler step: run the next enabled block of worker `w`.  A settled
worker (or an out-of-range id) does nothing. -/
def step (env : Env) (w : Nat) (st : ExecState) : ExecState :=
  match st.phases.getD w Phase.done with
  | .idle => claimStep env w st
  | .invoking i => finishStep env w i st
  | .done => st
  | .aborted => st

/-- Run a whole schedule of worker ids. -/
def run (env : Env) (st : ExecState) (sched : List Nat) : ExecState :=
  sched.foldl (fun s w => step env w s) st

/-- Pool sizing of `executeTools`:
`Math.max(1, Math.min(maxConcurrentToolCalls ?? 3, task.toolCalls.length))`. -/
def poolSize (maxOpt : Option Nat) (n : Nat) : Nat :=
  max 1 (min (maxOpt.getD 3) n)

/-- Initial state: the selector's call list, counter at 0, aggregate flag
`true`, a fresh pool of idle workers, and empty histories. -/
def initState (calls0 : List ToolCall) (maxOpt : Option Nat) : ExecState :=
  ⟨calls0, 0, true, List.replicate (poolSize maxOpt calls0.length) Phase.idle,
    [], [], [], []⟩

/-- All worker promises have settled (`Promise.all` has resolved or rejected). -/
def terminated (st : ExecState) : Bool :=
  st.phases.all isSettled

/-- How `executeTools` settles. -/
inductive ExecOutcome
  | resolved (b : Bool)
  | rejected
deriving DecidableEq

/-- The settled value of `Promise.all(workers)` followed by
`return allSucceeded`: rejected when some worker's promise rejected. -/
def outcomeOf (st : ExecState) : ExecOutcome :=
  if st.phases.any (fun p => decide (p = Phase.aborted)) then ExecOutcome.rejected
  else ExecOutcome.resolved st.allSucceeded

/-- Everything observable about one finished `executeTools` call. -/
structure ExecReport where
  outcome : ExecOutcome
  trace : List Event
  writes : List CtxWrite
  finalCalls : List ToolCall
deriving DecidableEq

/-- Top level of `executeTools`: `if (!task.toolCalls) return true` (an absent
list short-circuits before any worker, callback or write), otherwise run the
worker pool under the given schedule; `none` when the schedule does not settle
every worker. -/
def executeToolsRun (env : Env) (toolCalls : Option (List ToolCall))
    (maxOpt : Option Nat) (sched : List Nat) : Option ExecReport :=
  match toolCalls with
  | none => some ⟨ExecOutcome.resolved true, [], [], []⟩
  | some cs =>
    let st := run env (initState cs maxOpt) sched
    if terminated st then some ⟨outcomeOf st, st.trace, st.writes, st.calls⟩
    else none

/-- Number of workers currently holding call `i`. -/
def owners (st : ExecState) (i : Nat) : Nat :=
  st.phases.countP (fun p => decide (p = Phase.invoking i))

/-- The subtrace of events about call `i`, in firing order. -/
def eventsFor (tr : List Event) (i : Nat) : List Event :=
  tr.filter (fun e => decide (e.index = i))

/-- How many times the capability of call `i` was invoked (retry loops count
as one entry; attempts within one loop are counted by `RetryResult`). -/
def invokedCount (st : ExecState) (i : Nat) : Nat :=
  st.invokeLog.count i

/-- Number of calls currently being processed by some worker. -/
def runningCount (st : ExecState) : Nat :=
  st.phases.countP isInvoking

/-- Status field of call `i`. -/
def statusAt (st : ExecState) (i : Nat) : Status :=
  (callAt st.calls i).status

/-- Tool name of call `i` of a list. -/
def toolOf (cs : List ToolCall) (i : Nat) : String :=
  (callAt cs i).tool

/-- Argument mapping of call `i` of a list. -/
def argsOf (cs : List ToolCall) (i : Nat) : List (String × String) :=
  (callAt cs i).args

/-- Whether the registry resolves the tool name of call `i`. -/
def foundAt (env : Env) (cs : List ToolCall) (i : Nat) : Bool :=
  env.registry.contains (toolOf cs i)

/-- The `running` update event of call `i`. -/
def runEvt (env : Env) (i : Nat) : Event :=
  .update env.taskId i Status.running

/-- The `completed` update event of call `i`. -/
def doneEvt (env : Env) (i : Nat) : Event :=
  .update env.taskId i Status.completed

/-- The `failed` update event of call `i`. -/
def failEvt (env : Env) (i : Nat) : Event :=
  .update env.taskId i Status.failed

/-- The `onToolCallError` event of call `i` with message `msg`. -/
def errEvt (env : Env) (cs : List ToolCall) (i : Nat) (msg : String) : Event :=
  .error env.taskId i (toolOf cs i) (argsOf cs i) msg

/-- Constraints a worker phase puts on the shared counter: a settled worker
has seen the counter pass the call count, an in-flight worker holds a claimed
in-range index. -/
def phaseOk (numCalls n : Nat) : Phase → Prop
  | .idle => True
  | .done => numCalls < n
  | .aborted => False
  | .invoking i => i < n ∧ i < numCalls

/-- The per-call state machine, as observable from the state: each call is
unclaimed, in flight (claimed, `running` fired, awaiting its capability), or
finished one of the three ways (invoke succeeded, invoke failed terminally,
capability missing), with the exact callback subtrace of each case. -/
def lifecycleAt (env : Env) (calls0 : List ToolCall) (st : ExecState)
    (i : Nat) : Prop :=
  (st.nextIndex ≤ i ∧ statusAt st i = Status.pending ∧
    eventsFor st.trace i = [] ∧ owners st i = 0 ∧ invokedCount st i = 0)
  ∨ (i < st.nextIndex ∧ owners st i = 1 ∧ foundAt env calls0 i = true ∧
    statusAt st i = Status.pending ∧ eventsFor st.trace i = [runEvt env i] ∧
    invokedCount st i = 0)
  ∨ (i < st.nextIndex ∧ owners st i = 0 ∧ foundAt env calls0 i = true ∧
    invokedCount st i = 1 ∧ (∃ r, (retryAt env i).result = Except.ok r) ∧
    statusAt st i = Status.completed ∧
    eventsFor st.trace i = [runEvt env i, doneEvt env i])
  ∨ (i < st.nextIndex ∧ owners st i = 0 ∧ foundAt env calls0 i = true ∧
    invokedCount st i = 1 ∧ statusAt st i = Status.failed ∧
    (∃ m, (retryAt env i).result = Except.error m ∧
      eventsFor st.trace i = [runEvt env i, failEvt env i, errEvt env calls0 i m]))
  ∨ (i < st.nextIndex ∧ owners st i = 0 ∧ foundAt env calls0 i = false ∧
    invokedCount st i = 0 ∧ statusAt st i = Status.failed ∧
    eventsFor st.trace i =
      [runEvt env i, failEvt env i,
        errEvt env calls0 i (String.append "Tool not found: " (toolOf calls0 i))])

/-- The inductive invariant of an `executeTools` run with non-throwing
observers: list shape and identity of the entries are preserved, the claim log
mirrors the counter, every worker phase is consistent, every call is at a
well-formed point of its lifecycle, and the aggregate flag is `true` exactly
while no call has failed. -/
structure Inv (env : Env) (calls0 : List ToolCall) (maxOpt : Option Nat)
    (st : ExecState) : Prop where
  callsLen : st.calls.length = calls0.length
  phasesLen : st.phases.length = poolSize maxOpt calls0.length
  frame : st.calls.map stripStatus = calls0.map stripStatus
  claimsEq : st.claimLog = List.range st.nextIndex
  phasesOk : ∀ w, w < st.phases.length →
    phaseOk calls0.length st.nextIndex (st.phases.getD w Phase.done)
  lifecycle : ∀ i, i < calls0.length → lifecycleAt env calls0 st i
  flagIff : st.allSucceeded = true ↔
    ∀ i, i < calls0.length → statusAt st i ≠ Status.failed
  invokedLt : ∀ j ∈ st.invokeLog, j < calls0.length

/-- A call whose processing is over: claimed, owned by no worker, status
terminal. -/
def finishedAt (st : ExecState) (i : Nat) : Prop :=
  i < st.nextIndex ∧ owners st i = 0 ∧ statusAt st i ≠ Status.pending

/-- The terminal status call `i` must end in, fully determined by the
environment: `completed` when its capability resolves and the retry loop
returns, `failed` when the capability is missing or the loop throws. -/
def expectedFinal (env : Env) (calls0 : List ToolCall) (i : Nat) : Status :=
  if foundAt env calls0 i then
    match (retryAt env i).result with
    | .ok _ => Status.completed
    | .error _ => Status.failed
  else Status.failed

/-- Invariant of a run over an empty call list: nothing is observed and every
worker only ever claims an out-of-range index and exits. -/
def emptyInv (st : ExecState) : Prop :=
  st.calls = [] ∧ st.trace = [] ∧ st.writes = [] ∧ st.invokeLog = []
  ∧ st.allSucceeded = true
  ∧ ∀ w, w < st.phases.length →
      st.phases.getD w Phase.done = Phase.idle ∨
        st.phases.getD w Phase.done = Phase.done

/-- A tool call proposed by the reasoning backend (`tc.name`, `tc.args`). -/
structure RawToolCall where
  name : String
  args : List (String × String)
deriving DecidableEq

/-- Shape of the `tool_calls` field of the backend's response value. -/
inductive ToolCallsField
  | absent
  | notArray
  | array (tcs : List RawToolCall)
deriving DecidableEq

/-- Shape of the `unknown` response value `extractToolCalls` inspects:
falsy, truthy but not an object, or an object with a `tool_calls` field of
some shape. -/
inductive BackendResponse
  | falsy
  | nonObjectTruthy
  | obj (tcField : ToolCallsField)
deriving DecidableEq

/-- `extractToolCalls`: returns `[]` unless the response is a truthy object
whose `tool_calls` field is an array, in which case each element is mapped to
its name and args, in order. -/
def extractToolCalls : BackendResponse → List RawToolCall
  | .falsy => []
  | .nonObjectTruthy => []
  | .obj .absent => []
  | .obj .notArray => []
  | .obj (.array tcs) => tcs

/-- The tail of `selectTools` (the backend round trip is the collaborator):
extract the proposed calls from the response and initialize every entry to
`pending`. -/
def selectTools (response : BackendResponse) : List ToolCall :=
  (extractToolCalls response).map (fun tc => ⟨tc.name, tc.args, Status.pending⟩)

/-- A sample call list (one resolvable call) used to instantiate theorems. -/
def sampleCalls : List ToolCall :=
  [⟨"get_income_statement", [("ticker", "AAPL")], Status.pending⟩]

/-- An environment whose observers never throw and whose single capability
succeeds at once. -/
def sampleEnv : Env :=
  ⟨"task-1", "query-1", ["get_income_statement"],
    fun _ _ => InvokeOutcome.ok "result", fun _ _ => 0,
    fun _ _ => false, fun _ => false, "observer threw"⟩

/-- An environment whose observer throws on every `running` update. -/
def throwingEnv : Env :=
  ⟨"task-1", "query-1", ["get_income_statement"],
    fun _ _ => InvokeOutcome.ok "result", fun _ _ => 0,
    fun _ s => decide (s = Status.running), fun _ => false, "observer threw"⟩

/-- A capability behavior that is rate-limited on every attempt. -/
def throttleOutcome : Nat → InvokeOutcome := fun _ => InvokeOutcome.err "429"

/-- A jitter sampling that always draws 0. -/
def zeroJitter : Nat → Nat := fun _ => 0

theorem getD_len_le {α : Type} (l : List α) (w : Nat) (d : α) (h : l.length ≤ w) :
    l.getD w d = d := by
  induction l generalizing w with
  | nil => simp [List.getD]
  | cons x xs ih =>
    cases w with
    | zero => simp at h
    | succ n => simpa using ih n (by simpa using h)

theorem getD_set_self {α : Type} (l : List α) (w : Nat) (a d : α)
    (h : w < l.length) : (l.set w a).getD w d = a := by
  induction l generalizing w with
  | nil => simp at h
  | cons x xs ih =>
    cases w with
    | zero => rfl
    | succ n => simpa using ih n (by simpa using h)

theorem getD_set_ne {α : Type} (l : List α) (w v : Nat) (a d : α) (h : v ≠ w) :
    (l.set w a).getD v d = l.getD v d := by
  induction l generalizing w v with
  | nil => simp
  | cons x xs ih =>
    cases w with
    | zero =>
      cases v with
      | zero => exact absurd rfl h
      | succ m => simp
    | succ n =>
      cases v with
      | zero => simp
      | succ m => simpa using ih n m (fun hc => h (by rw [hc]))

theorem getD_mem {α : Type} (l : List α) (w : Nat) (d : α) (h : w < l.length) :
    l.getD w d ∈ l := by
  induction l generalizing w with
  | nil => simp at h
  | cons x xs ih =>
    cases w with
    | zero => simp
    | succ n =>
      simp only [List.getD_cons_succ]
      exact List.mem_cons_of_mem _ (ih n (by simpa using h))

theorem countP_set_eq {α : Type} (l : List α) (w : Nat) (a d : α) (p : α → Bool)
    (h : w < l.length) :
    (l.set w a).countP p + (if p (l.getD w d) then 1 else 0)
      = l.countP p + (if p a then 1 else 0) := by
  induction l generalizing w with
  | nil => simp at h
  | cons x xs ih =>
    cases w with
    | zero =>
      simp only [List.set_cons_zero, List.countP_cons, List.getD_cons_zero]
      omega
    | succ n =>
      simp only [List.set_cons_succ, List.countP_cons, List.getD_cons_succ]
      have := ih n (by simpa using h)
      omega

theorem countP_pos_of_getD {α : Type} (l : List α) (w : Nat) (d : α)
    (p : α → Bool) (h : w < l.length) (hp : p (l.getD w d) = true) :
    0 < l.countP p := by
  have hm := getD_mem l w d h
  exact List.countP_pos_iff.mpr ⟨_, hm, hp⟩

theorem countP_replicate_false {α : Type} (n : Nat) (a : α) (p : α → Bool)
    (h : p a = false) : (List.replicate n a).countP p = 0 := by
  induction n with
  | zero => rfl
  | succ m ih => simp [List.replicate_succ, List.countP_cons, h, ih]

theorem getD_replicate_self {α : Type} (n w : Nat) (a d : α) (h : w < n) :
    (List.replicate n a).getD w d = a := by
  induction n generalizing w with
  | zero => omega
  | succ m ih =>
    cases w with
    | zero => rfl
    | succ v => simpa [List.replicate_succ] using ih v (by omega)

theorem setStatus_length (cs : List ToolCall) (i : Nat) (s : Status) :
    (setStatus cs i s).length = cs.length := by
  induction cs generalizing i with
  | nil => rfl
  | cons c cs ih => cases i <;> simp [setStatus, ih]

theorem callAt_setStatus_self (cs : List ToolCall) (i : Nat) (s : Status)
    (h : i < cs.length) :
    callAt (setStatus cs i s) i = ⟨(callAt cs i).tool, (callAt cs i).args, s⟩ := by
  induction cs generalizing i with
  | nil => simp at h
  | cons c cs ih =>
    cases i with
    | zero => rfl
    | succ n =>
      simpa [setStatus, callAt] using ih n (by simpa using h)

theorem callAt_setStatus_ne (cs : List ToolCall) (i j : Nat) (s : Status)
    (h : j ≠ i) : callAt (setStatus cs i s) j = callAt cs j := by
  induction cs generalizing i j with
  | nil => rfl
  | cons c cs ih =>
    cases i with
    | zero =>
      cases j with
      | zero => exact absurd rfl h
      | succ m => rfl
    | succ n =>
      cases j with
      | zero => rfl
      | succ m =>
        simpa [setStatus, callAt] using ih n m (fun hc => h (by rw [hc]))

theorem mapStrip_setStatus (cs : List ToolCall) (i : Nat) (s : Status) :
    (setStatus cs i s).map stripStatus = cs.map stripStatus := by
  induction cs generalizing i with
  | nil => rfl
  | cons c cs ih => cases i <;> simp [setStatus, stripStatus, ih]

theorem strip_eq_at (cs cs0 : List ToolCall)
    (h : cs.map stripStatus = cs0.map stripStatus) (i : Nat) :
    toolOf cs i = toolOf cs0 i ∧ argsOf cs i = argsOf cs0 i := by
  induction cs generalizing cs0 i with
  | nil =>
    cases cs0 with
    | nil => exact ⟨rfl, rfl⟩
    | cons c0 cs0 => simp at h
  | cons c cs ih =>
    cases cs0 with
    | nil => simp at h
    | cons c0 cs0 =>
      simp only [List.map_cons, List.cons.injEq] at h
      obtain ⟨h1, h2⟩ := h
      cases i with
      | zero =>
        simp only [stripStatus, Prod.mk.injEq] at h1
        exact ⟨h1.1, h1.2⟩
      | succ n =>
        simpa [toolOf, argsOf, callAt] using ih cs0 h2 n

theorem strip_eq_length (cs cs0 : List ToolCall)
    (h : cs.map stripStatus = cs0.map stripStatus) : cs.length = cs0.length := by
  have := congrArg List.length h
  simpa using this

theorem eventsFor_append (tr es : List Event) (i : Nat) :
    eventsFor (tr ++ es) i = eventsFor tr i ++ eventsFor es i := by
  simp [eventsFor, List.filter_append]

theorem eventsFor_single_hit (e : Event) (i : Nat) (h : e.index = i) :
    eventsFor [e] i = [e] := by
  simp [eventsFor, h]

theorem eventsFor_single_miss (e : Event) (i : Nat) (h : e.index ≠ i) :
    eventsFor [e] i = [] := by
  simp [eventsFor, h]

theorem count_append_self (l : List Nat) (i : Nat) :
    (l ++ [i]).count i = l.count i + 1 := by
  simp [List.count_append]

theorem count_append_ne (l : List Nat) (i j : Nat) (h : j ≠ i) :
    (l ++ [i]).count j = l.count j := by
  simp [List.count_append, List.count_cons, h]

theorem run_nil (env : Env) (st : ExecState) : run env st [] = st := rfl

theorem run_cons (env : Env) (st : ExecState) (w : Nat) (ws : List Nat) :
    run env st (w :: ws) = run env (step env w st) ws := rfl

theorem run_append (env : Env) (st : ExecState) (s1 s2 : List Nat) :
    run env st (s1 ++ s2) = run env (run env st s1) s2 := by
  simp [run, List.foldl_append]

theorem run_ind {P : ExecState → Prop} (env : Env) (sched : List Nat)
    (st : ExecState) (h0 : P st) (hstep : ∀ s w, P s → P (step env w s)) :
    P (run env st sched) := by
  induction sched generalizing st with
  | nil => exact h0
  | cons w ws ih => exact ih _ (hstep _ _ h0)

/-- C3: the capability is invoked with at most 3 total attempts; an attempt is
retried only when it fails with a transient-throttle-signature error and fewer
than 3 attempts have been made; the pre-retry delay for attempt `a` is
`2^a` seconds (`2^a * 1000` ms) plus a random jitter below 500 ms; two
throttle failures then a success end with the result and exactly 3
invocations; a failure on the 3rd attempt (throttle or not) ends as that
terminal error with exactly 3 invocations and never a 4th; a non-throttle
failure on the 1st attempt is terminal after exactly 1 invocation. -/
theorem invokeWithRetries_retry_policy (outcome : Nat → InvokeOutcome)
    (jitter : Nat → Nat) (hj : ∀ a, jitter a < 500) :
    (1 ≤ (invokeWithRetries outcome jitter).invocations ∧
      (invokeWithRetries outcome jitter).invocations ≤ 3)
    ∧ (∀ a, 1 ≤ a → a < (invokeWithRetries outcome jitter).invocations →
        throttleErr (outcome a) = true)
    ∧ (invokeWithRetries outcome jitter).delays.length
        = (invokeWithRetries outcome jitter).invocations - 1
    ∧ (∀ k, k < (invokeWithRetries outcome jitter).delays.length →
        (invokeWithRetries outcome jitter).delays.getD k 0
            = 2 ^ (k + 1) * 1000 + jitter (k + 1)
          ∧ 2 ^ (k + 1) * 1000 ≤ (invokeWithRetries outcome jitter).delays.getD k 0
          ∧ (invokeWithRetries outcome jitter).delays.getD k 0
              < 2 ^ (k + 1) * 1000 + 500)
    ∧ (∀ r, throttleErr (outcome 1) = true → throttleErr (outcome 2) = true →
        outcome 3 = InvokeOutcome.ok r →
        (invokeWithRetries outcome jitter).result = Except.ok r ∧
          (invokeWithRetries outcome jitter).invocations = 3)
    ∧ (∀ m, throttleErr (outcome 1) = true → throttleErr (outcome 2) = true →
        outcome 3 = InvokeOutcome.err m →
        (invokeWithRetries outcome jitter).result = Except.error m ∧
          (invokeWithRetries outcome jitter).invocations = 3)
    ∧ (∀ m, outcome 1 = InvokeOutcome.err m → isTooMany m = false →
        (invokeWithRetries outcome jitter).result = Except.error m ∧
          (invokeWithRetries outcome jitter).invocations = 1) := by
  rcases h1 : outcome 1 with r1 | m1
  · have hrr : invokeWithRetries outcome jitter = ⟨Except.ok r1, 1, []⟩ := by
      simp [invokeWithRetries, invokeFrom, h1]
    rw [hrr]
    refine ⟨⟨by simp, by simp⟩, ?_, by simp, ?_, ?_, ?_, ?_⟩
    · intro a ha hb; simp at hb; omega
    · intro k hk; simp at hk
    · intro r hthr; simp [throttleErr] at hthr
    · intro m hthr; simp [throttleErr] at hthr
    · intro m hm; exact absurd hm (by simp)
  · rcases htm1 : isTooMany m1 with _ | _
    · have hrr : invokeWithRetries outcome jitter = ⟨Except.error m1, 1, []⟩ := by
        simp [invokeWithRetries, invokeFrom, h1, htm1]
      rw [hrr]
      refine ⟨⟨by simp, by simp⟩, ?_, by simp, ?_, ?_, ?_, ?_⟩
      · intro a ha hb; simp at hb; omega
      · intro k hk; simp at hk
      · intro r hthr; simp [throttleErr, htm1] at hthr
      · intro m hthr; simp [throttleErr, htm1] at hthr
      · intro m hm htm
        cases hm
        exact ⟨rfl, rfl⟩
    · rcases h2 : outcome 2 with r2 | m2
      · have hrr : invokeWithRetries outcome jitter
            = ⟨Except.ok r2, 2, [2 ^ 1 * 1000 + jitter 1]⟩ := by
          simp [invokeWithRetries, invokeFrom, h1, htm1, h2]
        rw [hrr]
        refine ⟨⟨by simp, by simp⟩, ?_, by simp, ?_, ?_, ?_, ?_⟩
        · intro a ha hb
          simp at hb
          have : a = 1 := by omega
          subst this
          simp [throttleErr, h1, htm1]
        · intro k hk
          simp at hk
          subst hk
          refine ⟨by simp, by simp, ?_⟩
          have := hj 1
          simp
          omega
        · intro r hthr1 hthr2; simp [throttleErr] at hthr2
        · intro m hthr1 hthr2; simp [throttleErr] at hthr2
        · intro m hm; cases hm; intro htm; simp [htm1] at htm
      · rcases htm2 : isTooMany m2 with _ | _
        · have hrr : invokeWithRetries outcome jitter
              = ⟨Except.error m2, 2, [2 ^ 1 * 1000 + jitter 1]⟩ := by
            simp [invokeWithRetries, invokeFrom, h1, htm1, h2, htm2]
          rw [hrr]
          refine ⟨⟨by simp, by simp⟩, ?_, by simp, ?_, ?_, ?_, ?_⟩
          · intro a ha hb
            simp at hb
            have : a = 1 := by omega
            subst this
            simp [throttleErr, h1, htm1]
          · intro k hk
            simp at hk
            subst hk
            refine ⟨by simp, by simp, ?_⟩
            have := hj 1
            simp
            omega
          · intro r hthr1 hthr2
            simp [throttleErr, htm2] at hthr2
          · intro m hthr1 hthr2
            simp [throttleErr, htm2] at hthr2
          · intro m hm; cases hm; intro htm; simp [htm1] at htm
        · rcases h3 : outcome 3 with r3 | m3
          · have hrr : invokeWithRetries outcome jitter
                = ⟨Except.ok r3, 3,
                    [2 ^ 1 * 1000 + jitter 1, 2 ^ 2 * 1000 + jitter 2]⟩ := by
              simp [invokeWithRetries, invokeFrom, h1, htm1, h2, htm2, h3]
            rw [hrr]
            refine ⟨⟨by simp, by simp⟩, ?_, by simp, ?_, ?_, ?_, ?_⟩
            · intro a ha hb
              simp at hb
              have : a = 1 ∨ a = 2 := by omega
              rcases this with h | h <;> subst h
              · simp [throttleErr, h1, htm1]
              · simp [throttleErr, h2, htm2]
            · intro k hk
              simp at hk
              have : k = 0 ∨ k = 1 := by omega
              rcases this with h | h <;> subst h
              · refine ⟨by simp, by simp, ?_⟩
                have := hj 1
                simp
                omega
              · refine ⟨by simp, by simp, ?_⟩
                have := hj 2
                simp
                omega
            · intro r _ _ h3'
              cases h3'
              exact ⟨rfl, rfl⟩
            · intro m _ _ h3'; cases h3'
            · intro m hm; cases hm; intro htm; simp [htm1] at htm
          · have hrr : invokeWithRetries outcome jitter
                = ⟨Except.error m3, 3,
                    [2 ^ 1 * 1000 + jitter 1, 2 ^ 2 * 1000 + jitter 2]⟩ := by
              simp [invokeWithRetries, invokeFrom, h1, htm1, h2, htm2, h3]
            rw [hrr]
            refine ⟨⟨by simp, by simp⟩, ?_, by simp, ?_, ?_, ?_, ?_⟩
            · intro a ha hb
              simp at hb
              have : a = 1 ∨ a = 2 := by omega
              rcases this with h | h <;> subst h
              · simp [throttleErr, h1, htm1]
              · simp [throttleErr, h2, htm2]
            · intro k hk
              simp at hk
              have : k = 0 ∨ k = 1 := by omega
              rcases this with h | h <;> subst h
              · refine ⟨by simp, by simp, ?_⟩
                have := hj 1
                simp
                omega
              · refine ⟨by simp, by simp, ?_⟩
                have := hj 2
                simp
                omega
            · intro r _ _ h3'; cases h3'
            · intro m _ _ h3'
              cases h3'
              exact ⟨rfl, rfl⟩
            · intro m hm; cases hm; intro htm; simp [htm1] at htm

/-- C3 witness: with every attempt rate-limited (`429`) and zero jitter, the
hypotheses hold and the loop ends as the terminal `429` error after exactly 3
invocations. -/
theorem invokeWithRetries_retry_policy_witness :
    (∀ a, zeroJitter a < 500) ∧
      (invokeWithRetries throttleOutcome zeroJitter).result = Except.error "429" ∧
      (invokeWithRetries throttleOutcome zeroJitter).invocations = 3 :=
  ⟨by intro a; norm_num [zeroJitter],
    (invokeWithRetries_retry_policy throttleOutcome zeroJitter
          (by intro a; norm_num [zeroJitter])).2.2.2.2.2.1 "429" (by decide)
      (by decide) rfl⟩

/-- C6: every entry returned by the `selectTools` tail has initial status
`pending`; the name/args sequence equals the backend's proposed sequence in
its order; and under the backend contract (every proposed name is one of the
bound capabilities), every entry's `tool` field is a name of the capability
set; a response proposing no calls yields the empty sequence. -/
theorem selectTools_pending_order_and_names (resp : BackendResponse)
    (names : List String)
    (hcontract : ∀ tc ∈ extractToolCalls resp, tc.name ∈ names) :
    (∀ c ∈ selectTools resp, c.status = Status.pending ∧ c.tool ∈ names)
    ∧ (selectTools resp).map (fun c => (c.tool, c.args))
        = (extractToolCalls resp).map (fun tc => (tc.name, tc.args))
    ∧ (extractToolCalls resp = [] → selectTools resp = []) := by
  refine ⟨?_, ?_, ?_⟩
  · intro c hc
    simp only [selectTools, List.mem_map] at hc
    obtain ⟨tc, htc, rfl⟩ := hc
    exact ⟨rfl, hcontract tc htc⟩
  · simp [selectTools, List.map_map]
  · intro h
    simp [selectTools, h]

/-- C6 witness: a concrete backend response proposing one call to
`get_income_statement`, with a capability set containing that name. -/
theorem selectTools_pending_order_and_names_witness :
    (∀ tc ∈ extractToolCalls (BackendResponse.obj (ToolCallsField.array
        [⟨"get_income_statement", [("ticker", "AAPL")]⟩])),
      tc.name ∈ ["get_income_statement", "get_news"])
    ∧ ∀ c ∈ selectTools (BackendResponse.obj (ToolCallsField.array
        [⟨"get_income_statement", [("ticker", "AAPL")]⟩])),
      c.status = Status.pending ∧ c.tool ∈ ["get_income_statement", "get_news"] :=
  ⟨by decide,
    (selectTools_pending_order_and_names _ ["get_income_statement", "get_news"]
        (by decide)).1⟩

/-- C10: a falsy or non-object response, or an object whose `tool_calls`
field is absent or not an array, makes `selectTools` return the empty
sequence without error — indistinguishable from the backend proposing zero
calls. -/
theorem selectTools_malformed_response_empty (resp : BackendResponse)
    (h : resp = BackendResponse.falsy ∨ resp = BackendResponse.nonObjectTruthy ∨
      resp = BackendResponse.obj ToolCallsField.absent ∨
      resp = BackendResponse.obj ToolCallsField.notArray) :
    extractToolCalls resp = [] ∧ selectTools resp = []
    ∧ selectTools resp = selectTools (BackendResponse.obj (ToolCallsField.array [])) := by
  rcases h with h | h | h | h <;> subst h <;> exact ⟨rfl, rfl, rfl⟩

/-- C10 witness: the falsy response. -/
theorem selectTools_malformed_response_empty_witness :
    (BackendResponse.falsy = BackendResponse.falsy ∨
      BackendResponse.falsy = BackendResponse.nonObjectTruthy ∨
      BackendResponse.falsy = BackendResponse.obj ToolCallsField.absent ∨
      BackendResponse.falsy = BackendResponse.obj ToolCallsField.notArray)
    ∧ extractToolCalls BackendResponse.falsy = []
    ∧ selectTools BackendResponse.falsy = []
    ∧ selectTools BackendResponse.falsy
        = selectTools (BackendResponse.obj (ToolCallsField.array [])) :=
  ⟨Or.inl rfl,
    selectTools_malformed_response_empty BackendResponse.falsy (Or.inl rfl)⟩

theorem step_of_done (env : Env) (w : Nat) (st : ExecState)
    (hph : st.phases.getD w Phase.done = Phase.done) : step env w st = st := by
  unfold step
  rw [hph]

theorem step_of_aborted (env : Env) (w : Nat) (st : ExecState)
    (hph : st.phases.getD w Phase.done = Phase.aborted) : step env w st = st := by
  unfold step
  rw [hph]

theorem step_of_idle (env : Env) (w : Nat) (st : ExecState)
    (hph : st.phases.getD w Phase.done = Phase.idle) :
    step env w st = claimStep env w st := by
  unfold step
  rw [hph]

theorem step_of_invoking (env : Env) (w i : Nat) (st : ExecState)
    (hph : st.phases.getD w Phase.done = Phase.invoking i) :
    step env w st = finishStep env w i st := by
  unfold step
  rw [hph]

theorem step_phases_length (env : Env) (w : Nat) (st : ExecState) :
    (step env w st).phases.length = st.phases.length := by
  cases hph : st.phases.getD w Phase.done with
  | done => rw [step_of_done env w st hph]
  | aborted => rw [step_of_aborted env w st hph]
  | idle =>
    rw [step_of_idle env w st hph]
    simp only [claimStep, handleFailure, emit, setPhase]
    split_ifs <;> simp
  | invoking i =>
    rw [step_of_invoking env w i st hph]
    rcases hres : (retryAt env i).result with m | res <;>
      simp only [finishStep, hres, handleFailure, emit, setPhase] <;>
      split_ifs <;> simp

theorem step_calls_strip (env : Env) (w : Nat) (st : ExecState) :
    (step env w st).calls.map stripStatus = st.calls.map stripStatus := by
  cases hph : st.phases.getD w Phase.done with
  | done => rw [step_of_done env w st hph]
  | aborted => rw [step_of_aborted env w st hph]
  | idle =>
    rw [step_of_idle env w st hph]
    simp only [claimStep, handleFailure, emit, setPhase]
    split_ifs <;> simp [mapStrip_setStatus]
  | invoking i =>
    rw [step_of_invoking env w i st hph]
    rcases hres : (retryAt env i).result with m | res <;>
      simp only [finishStep, hres, handleFailure, emit, setPhase] <;>
      split_ifs <;> simp [mapStrip_setStatus]

theorem step_flag_mono (env : Env) (w : Nat) (st : ExecState) :
    (step env w st).allSucceeded = true → st.allSucceeded = true := by
  cases hph : st.phases.getD w Phase.done with
  | done => rw [step_of_done env w st hph]; exact id
  | aborted => rw [step_of_aborted env w st hph]; exact id
  | idle =>
    rw [step_of_idle env w st hph]
    simp only [claimStep, handleFailure, emit, setPhase]
    split_ifs <;> simp
  | invoking i =>
    rw [step_of_invoking env w i st hph]
    rcases hres : (retryAt env i).result with m | res <;>
      simp only [finishStep, hres, handleFailure, emit, setPhase] <;>
      split_ifs <;> simp

theorem step_nextIndex_mono (env : Env) (w : Nat) (st : ExecState) :
    st.nextIndex ≤ (step env w st).nextIndex := by
  cases hph : st.phases.getD w Phase.done with
  | done => rw [step_of_done env w st hph]
  | aborted => rw [step_of_aborted env w st hph]
  | idle =>
    rw [step_of_idle env w st hph]
    simp only [claimStep, handleFailure, emit, setPhase]
    split_ifs <;> simp
  | invoking i =>
    rw [step_of_invoking env w i st hph]
    rcases hres : (retryAt env i).result with m | res <;>
      simp only [finishStep, hres, handleFailure, emit, setPhase] <;>
      split_ifs <;> simp

theorem run_phases_length (env : Env) (st : ExecState) (sched : List Nat) :
    (run env st sched).phases.length = st.phases.length := by
  induction sched generalizing st with
  | nil => rfl
  | cons w ws ih => rw [run_cons, ih, step_phases_length]

theorem run_calls_strip (env : Env) (st : ExecState) (sched : List Nat) :
    (run env st sched).calls.map stripStatus = st.calls.map stripStatus := by
  induction sched generalizing st with
  | nil => rfl
  | cons w ws ih => rw [run_cons, ih, step_calls_strip]

theorem run_flag_mono (env : Env) (st : ExecState) (sched : List Nat) :
    (run env st sched).allSucceeded = true → st.allSucceeded = true := by
  induction sched generalizing st with
  | nil => exact id
  | cons w ws ih =>
    rw [run_cons]
    exact fun h => step_flag_mono env w st (ih _ h)

theorem run_nextIndex_mono (env : Env) (st : ExecState) (sched : List Nat) :
    st.nextIndex ≤ (run env st sched).nextIndex := by
  induction sched generalizing st with
  | nil => exact le_refl _
  | cons w ws ih =>
    rw [run_cons]
    exact le_trans (step_nextIndex_mono env w st) (ih _)

/-- C5: along any interleaving, the worker pool of an `executeTools` run has
exactly `max(1, min(maxConcurrentToolCalls ?? 3, callCount))` workers, so at
no instant are more than that many calls being processed simultaneously; with
the option unset and 5 pending calls the simultaneous-processing bound is 3. -/
theorem executeTools_pool_size_bounds (env : Env) (calls0 : List ToolCall)
    (maxOpt : Option Nat) (sched : List Nat) :
    (run env (initState calls0 maxOpt) sched).phases.length
        = max 1 (min (maxOpt.getD 3) calls0.length)
    ∧ runningCount (run env (initState calls0 maxOpt) sched)
        ≤ max 1 (min (maxOpt.getD 3) calls0.length)
    ∧ (maxOpt = none → calls0.length = 5 →
        runningCount (run env (initState calls0 maxOpt) sched) ≤ 3) := by
  have h1 : (run env (initState calls0 maxOpt) sched).phases.length
      = max 1 (min (maxOpt.getD 3) calls0.length) := by
    rw [run_phases_length]
    simp [initState, poolSize]
  have h2 : runningCount (run env (initState calls0 maxOpt) sched)
      ≤ max 1 (min (maxOpt.getD 3) calls0.length) := by
    rw [← h1]
    exact List.countP_le_length _
  refine ⟨h1, h2, ?_⟩
  intro hmo hn
  subst hmo
  rw [hn] at h2
  simpa using h2

/-- C9: `executeTools` never adds or removes entries and mutates only the
status field — the call-list length and every entry's tool name and args are
those of the selector's list at every point of every interleaving — and the
aggregate-success flag is monotone: once false it never returns to true. -/
theorem executeTools_frame_and_flag_monotone (env : Env)
    (calls0 : List ToolCall) (maxOpt : Option Nat) (sched ext : List Nat) :
    (run env (initState calls0 maxOpt) sched).calls.length = calls0.length
    ∧ (run env (initState calls0 maxOpt) sched).calls.map stripStatus
        = calls0.map stripStatus
    ∧ (∀ i, toolOf (run env (initState calls0 maxOpt) sched).calls i
          = toolOf calls0 i
        ∧ argsOf (run env (initState calls0 maxOpt) sched).calls i
          = argsOf calls0 i)
    ∧ ((run env (initState calls0 maxOpt) (sched ++ ext)).allSucceeded = true →
        (run env (initState calls0 maxOpt) sched).allSucceeded = true) := by
  have hstrip : (run env (initState calls0 maxOpt) sched).calls.map stripStatus
      = calls0.map stripStatus := by
    rw [run_calls_strip]
    rfl
  refine ⟨?_, hstrip, ?_, ?_⟩
  · exact strip_eq_length _ _ hstrip
  · exact strip_eq_at _ _ hstrip
  · rw [run_append]
    exact run_flag_mono env _ ext

theorem emptyInv_step (env : Env) (w : Nat) (st : ExecState)
    (h : emptyInv st) : emptyInv (step env w st) := by
  obtain ⟨hc, ht, hwr, hi, ha, hp⟩ := h
  cases hph : st.phases.getD w Phase.done with
  | done =>
    rw [step_of_done env w st hph]
    exact ⟨hc, ht, hwr, hi, ha, hp⟩
  | aborted =>
    have hwlt : w < st.phases.length := by
      by_contra hcon
      push_neg at hcon
      rw [getD_len_le _ _ _ hcon] at hph
      cases hph
    rcases hp w hwlt with h' | h' <;> rw [hph] at h' <;> cases h'
  | invoking i =>
    have hwlt : w < st.phases.length := by
      by_contra hcon
      push_neg at hcon
      rw [getD_len_le _ _ _ hcon] at hph
      cases hph
    rcases hp w hwlt with h' | h' <;> rw [hph] at h' <;> cases h'
  | idle =>
    have hwlt : w < st.phases.length := by
      by_contra hcon
      push_neg at hcon
      rw [getD_len_le _ _ _ hcon] at hph
      cases hph
    have hnl : ¬ (st.nextIndex < st.calls.length) := by
      rw [hc]
      simp
    have hstep : step env w st
        = { st with nextIndex := st.nextIndex + 1,
                    claimLog := st.claimLog ++ [st.nextIndex],
                    phases := st.phases.set w Phase.done } := by
      rw [step_of_idle env w st hph]
      simp [claimStep, hnl, setPhase]
    rw [hstep]
    refine ⟨hc, ht, hwr, hi, ha, ?_⟩
    intro v hv
    simp only [List.length_set] at hv
    rcases eq_or_ne v w with rfl | hne
    · rw [getD_set_self _ _ _ _ hwlt]
      right
      rfl
    · rw [getD_set_ne _ _ _ _ _ hne]
      exact hp v hv

theorem forall_mem_of_getD {α : Type} (l : List α) (d : α) (P : α → Prop)
    (h : ∀ w, w < l.length → P (l.getD w d)) : ∀ x ∈ l, P x := by
  induction l with
  | nil => intro x hx; cases hx
  | cons a as ih =>
    intro x hx
    rcases List.mem_cons.mp hx with rfl | hx
    · exact h 0 (by simp)
    · exact ih (fun w hw => h (w + 1) (by simpa using hw)) x hx

/-- C4: an absent call list resolves `true` at once with no invocation, no
context write and no callback; an empty call list does the same through the
worker loop (every worker claims an out-of-range index and exits). -/
theorem executeTools_empty_list_trivially_true (env : Env) (maxOpt : Option Nat)
    (sched : List Nat)
    (hterm : terminated (run env (initState [] maxOpt) sched) = true) :
    executeToolsRun env none maxOpt sched
        = some ⟨ExecOutcome.resolved true, [], [], []⟩
    ∧ executeToolsRun env (some []) maxOpt sched
        = some ⟨ExecOutcome.resolved true, [], [], []⟩
    ∧ (run env (initState [] maxOpt) sched).invokeLog = [] := by
  have hinv : emptyInv (run env (initState [] maxOpt) sched) := by
    refine @run_ind emptyInv env sched _ ?_ (fun s v hs => emptyInv_step env v s hs)
    refine ⟨rfl, rfl, rfl, rfl, rfl, ?_⟩
    intro v hv
    simp only [initState, List.length_replicate] at hv
    left
    exact getD_replicate_self _ _ _ _ hv
  obtain ⟨hc, ht, hwr, hi, ha, hp⟩ := hinv
  have hnoab : (run env (initState [] maxOpt) sched).phases.any
      (fun p => decide (p = Phase.aborted)) = false := by
    rw [List.any_eq_false]
    refine forall_mem_of_getD _ Phase.done _ ?_
    intro v hv
    rcases hp v hv with h' | h' <;> rw [h'] <;> simp
  refine ⟨rfl, ?_, hi⟩
  simp only [executeToolsRun, hterm, if_true]
  rw [outcomeOf, hnoab]
  rw [ha, hc, ht, hwr]
  simp

theorem phaseOk_mono (numCalls n nn : Nat) (hnn : n ≤ nn) (p : Phase)
    (h : phaseOk numCalls n p) : phaseOk numCalls nn p := by
  cases p with
  | idle => trivial
  | done => simp only [phaseOk] at h ⊢; omega
  | aborted => exact h.elim
  | invoking i =>
    simp only [phaseOk] at h ⊢
    omega

theorem owners_set_other (phs : List Phase) (w : Nat) (pOld pNew : Phase)
    (j : Nat) (hw : w < phs.length) (hold : phs.getD w Phase.done = pOld)
    (h1 : pOld ≠ Phase.invoking j) (h2 : pNew ≠ Phase.invoking j) :
    (phs.set w pNew).countP (fun p => decide (p = Phase.invoking j))
      = phs.countP (fun p => decide (p = Phase.invoking j)) := by
  have hcp := countP_set_eq phs w pNew Phase.done
    (fun p => decide (p = Phase.invoking j)) hw
  rw [hold] at hcp
  simp only [h1, h2, decide_eq_true_eq, if_neg, if_false] at hcp
  omega

theorem owners_set_enter (phs : List Phase) (w : Nat) (pOld : Phase) (j : Nat)
    (hw : w < phs.length) (hold : phs.getD w Phase.done = pOld)
    (h1 : pOld ≠ Phase.invoking j) :
    (phs.set w (Phase.invoking j)).countP (fun p => decide (p = Phase.invoking j))
      = phs.countP (fun p => decide (p = Phase.invoking j)) + 1 := by
  have hcp := countP_set_eq phs w (Phase.invoking j) Phase.done
    (fun p => decide (p = Phase.invoking j)) hw
  rw [hold] at hcp
  simp only [h1, decide_eq_true_eq, if_neg, if_false] at hcp
  simp at hcp
  omega

theorem owners_set_leave (phs : List Phase) (w : Nat) (j : Nat) (pNew : Phase)
    (hw : w < phs.length) (hold : phs.getD w Phase.done = Phase.invoking j)
    (h2 : pNew ≠ Phase.invoking j) :
    (phs.set w pNew).countP (fun p => decide (p = Phase.invoking j)) + 1
      = phs.countP (fun p => decide (p = Phase.invoking j)) := by
  have hcp := countP_set_eq phs w pNew Phase.done
    (fun p => decide (p = Phase.invoking j)) hw
  rw [hold] at hcp
  simp only [h2, decide_eq_true_eq, if_neg, if_false] at hcp
  simp at hcp
  omega

theorem lifecycleAt_transfer (env : Env) (calls0 : List ToolCall)
    (st st' : ExecState) (j : Nat)
    (hst : statusAt st' j = statusAt st j)
    (hev : eventsFor st'.trace j = eventsFor st.trace j)
    (how : owners st' j = owners st j)
    (hinv : invokedCount st' j = invokedCount st j)
    (hunc : st.nextIndex ≤ j → st'.nextIndex ≤ j)
    (hclm : j < st.nextIndex → j < st'.nextIndex)
    (h : lifecycleAt env calls0 st j) : lifecycleAt env calls0 st' j := by
  unfold lifecycleAt at h ⊢
  rw [hst, hev, how, hinv]
  rcases h with ⟨h1, h2⟩ | ⟨h1, h2⟩ | ⟨h1, h2⟩ | ⟨h1, h2⟩ | ⟨h1, h2⟩
  · exact Or.inl ⟨hunc h1, h2⟩
  · exact Or.inr (Or.inl ⟨hclm h1, h2⟩)
  · exact Or.inr (Or.inr (Or.inl ⟨hclm h1, h2⟩))
  · exact Or.inr (Or.inr (Or.inr (Or.inl ⟨hclm h1, h2⟩)))
  · exact Or.inr (Or.inr (Or.inr (Or.inr ⟨hclm h1, h2⟩)))

theorem status_setStatus_self (cs : List ToolCall) (i : Nat) (s : Status)
    (h : i < cs.length) : (callAt (setStatus cs i s) i).status = s := by
  rw [callAt_setStatus_self _ _ _ h]

theorem status_setStatus_ne (cs : List ToolCall) (i j : Nat) (s : Status)
    (h : j ≠ i) : (callAt (setStatus cs i s) j).status = (callAt cs j).status := by
  rw [callAt_setStatus_ne _ _ _ _ h]

theorem inv_step (env : Env) (calls0 : List ToolCall) (maxOpt : Option Nat)
    (hg : goodEnv env) (st : ExecState) (w : Nat)
    (h : Inv env calls0 maxOpt st) : Inv env calls0 maxOpt (step env w st) := by
  obtain ⟨hg1, hg2⟩ := hg
  cases hph : st.phases.getD w Phase.done with
  | done =>
    rw [step_of_done env w st hph]
    exact h
  | aborted =>
    have hw : w < st.phases.length := by
      by_contra hcon
      push_neg at hcon
      rw [getD_len_le _ _ _ hcon] at hph
      cases hph
    have hfalse := h.phasesOk w hw
    rw [hph] at hfalse
    exact hfalse.elim
  | idle =>
    have hw : w < st.phases.length := by
      by_contra hcon
      push_neg at hcon
      rw [getD_len_le _ _ _ hcon] at hph
      cases hph
    by_cases hlen : st.nextIndex < st.calls.length
    · have hiN : st.nextIndex < calls0.length := by
        have hcl := h.callsLen
        omega
      have htool' : (callAt st.calls st.nextIndex).tool = toolOf calls0 st.nextIndex :=
        (strip_eq_at _ _ h.frame st.nextIndex).1
      have hargs' : (callAt st.calls st.nextIndex).args = argsOf calls0 st.nextIndex :=
        (strip_eq_at _ _ h.frame st.nextIndex).2
      have huncl : st.nextIndex ≤ st.nextIndex ∧
          statusAt st st.nextIndex = Status.pending ∧
          eventsFor st.trace st.nextIndex = [] ∧ owners st st.nextIndex = 0 ∧
          invokedCount st st.nextIndex = 0 := by
        rcases h.lifecycle st.nextIndex hiN with hu | hc | hc | hc | hc
        · exact hu
        all_goals exact absurd hc.1 (lt_irrefl _)
      obtain ⟨-, hstp, hevp, how0, hinv0⟩ := huncl
      have how0' : st.phases.countP
          (fun p => decide (p = Phase.invoking st.nextIndex)) = 0 := how0
      cases hfb : env.registry.contains (callAt st.calls st.nextIndex).tool with
      | true =>
        have hmem : (callAt st.calls st.nextIndex).tool ∈ env.registry := by
          simpa using hfb
        have hstep : step env w st
            = { st with nextIndex := st.nextIndex + 1,
                        claimLog := st.claimLog ++ [st.nextIndex],
                        trace := st.trace ++
                          [Event.update env.taskId st.nextIndex Status.running],
                        phases := st.phases.set w (Phase.invoking st.nextIndex) } := by
          rw [step_of_idle env w st hph]
          simp [claimStep, hlen, hg1, hfb, hmem, emit, setPhase]
        rw [hstep]
        refine ⟨h.callsLen, ?_, h.frame, ?_, ?_, ?_, h.flagIff, h.invokedLt⟩
        · simp [List.length_set, h.phasesLen]
        · show st.claimLog ++ [st.nextIndex] = List.range (st.nextIndex + 1)
          rw [h.claimsEq, List.range_succ]
        · intro v hv
          simp only [List.length_set] at hv
          rcases eq_or_ne v w with rfl | hvw
          · rw [getD_set_self _ _ _ _ hw]
            simp only [phaseOk]
            exact ⟨Nat.lt_succ_self _, hiN⟩
          · rw [getD_set_ne _ _ _ _ _ hvw]
            exact phaseOk_mono _ _ _ (Nat.le_succ _) _ (h.phasesOk v hv)
        · intro j hj
          rcases eq_or_ne j st.nextIndex with rfl | hne
          · unfold lifecycleAt
            refine Or.inr (Or.inl ⟨Nat.lt_succ_self _, ?_, ?_, hstp, ?_, hinv0⟩)
            · show (st.phases.set w (Phase.invoking st.nextIndex)).countP
                (fun p => decide (p = Phase.invoking st.nextIndex)) = 1
              rw [owners_set_enter st.phases w Phase.idle st.nextIndex hw hph
                (by simp)]
              rw [how0']
            · show env.registry.contains (toolOf calls0 st.nextIndex) = true
              rw [← htool']
              exact hfb
            · show eventsFor (st.trace ++
                  [Event.update env.taskId st.nextIndex Status.running])
                  st.nextIndex = [runEvt env st.nextIndex]
              rw [eventsFor_append, hevp]
              simp [eventsFor, Event.index, runEvt]
          · refine lifecycleAt_transfer env calls0 st _ j rfl ?_ ?_ rfl ?_ ?_
              (h.lifecycle j hj)
            · show eventsFor (st.trace ++
                  [Event.update env.taskId st.nextIndex Status.running]) j
                = eventsFor st.trace j
              have hne' : st.nextIndex ≠ j := Ne.symm hne
              rw [eventsFor_append]
              simp [eventsFor, Event.index, hne']
            · exact owners_set_other st.phases w Phase.idle
                (Phase.invoking st.nextIndex) j hw hph (by simp)
                (by simp only [ne_eq, Phase.invoking.injEq]; exact Ne.symm hne)
            · intro hle
              show st.nextIndex + 1 ≤ j
              omega
            · intro hlt
              show j < st.nextIndex + 1
              omega
      | false =>
        have hnmem : ¬ (callAt st.calls st.nextIndex).tool ∈ env.registry := by
          simpa using hfb
        have hnmem' : ¬ toolOf calls0 st.nextIndex ∈ env.registry := by
          rw [← htool']
          exact hnmem
        have hstep : step env w st
            = { st with nextIndex := st.nextIndex + 1,
                        claimLog := st.claimLog ++ [st.nextIndex],
                        allSucceeded := false,
                        calls := setStatus st.calls st.nextIndex Status.failed,
                        trace := st.trace ++
                          [Event.update env.taskId st.nextIndex Status.running,
                           Event.update env.taskId st.nextIndex Status.failed,
                           Event.error env.taskId st.nextIndex
                             (toolOf calls0 st.nextIndex)
                             (argsOf calls0 st.nextIndex)
                             (String.append "Tool not found: "
                               (toolOf calls0 st.nextIndex))],
                        phases := st.phases.set w Phase.idle } := by
          rw [step_of_idle env w st hph]
          simp [claimStep, hlen, hg1, hfb, hnmem, hnmem', handleFailure, hg2,
            emit, setPhase, List.append_assoc, htool', hargs']
        rw [hstep]
        refine ⟨?_, ?_, ?_, ?_, ?_, ?_, ?_, h.invokedLt⟩
        · show (setStatus st.calls st.nextIndex Status.failed).length = calls0.length
          rw [setStatus_length]
          exact h.callsLen
        · simp [List.length_set, h.phasesLen]
        · show (setStatus st.calls st.nextIndex Status.failed).map stripStatus
            = calls0.map stripStatus
          rw [mapStrip_setStatus]
          exact h.frame
        · show st.claimLog ++ [st.nextIndex] = List.range (st.nextIndex + 1)
          rw [h.claimsEq, List.range_succ]
        · intro v hv
          simp only [List.length_set] at hv
          rcases eq_or_ne v w with rfl | hvw
          · rw [getD_set_self _ _ _ _ hw]
            simp only [phaseOk]
          · rw [getD_set_ne _ _ _ _ _ hvw]
            exact phaseOk_mono _ _ _ (Nat.le_succ _) _ (h.phasesOk v hv)
        · intro j hj
          rcases eq_or_ne j st.nextIndex with rfl | hne
          · unfold lifecycleAt
            refine Or.inr (Or.inr (Or.inr (Or.inr
              ⟨Nat.lt_succ_self _, ?_, ?_, hinv0, ?_, ?_⟩)))
            · show (st.phases.set w Phase.idle).countP
                (fun p => decide (p = Phase.invoking st.nextIndex)) = 0
              rw [owners_set_other st.phases w Phase.idle Phase.idle st.nextIndex
                hw hph (by simp) (by simp)]
              exact how0'
            · show env.registry.contains (toolOf calls0 st.nextIndex) = false
              rw [← htool']
              exact hfb
            · simp only [statusAt]
              exact status_setStatus_self st.calls st.nextIndex Status.failed hlen
            · show eventsFor (st.trace ++
                  [Event.update env.taskId st.nextIndex Status.running,
                   Event.update env.taskId st.nextIndex Status.failed,
                   Event.error env.taskId st.nextIndex (toolOf calls0 st.nextIndex)
                     (argsOf calls0 st.nextIndex)
                     (String.append "Tool not found: "
                       (toolOf calls0 st.nextIndex))]) st.nextIndex
                = [runEvt env st.nextIndex, failEvt env st.nextIndex,
                   errEvt env calls0 st.nextIndex
                     (String.append "Tool not found: "
                       (toolOf calls0 st.nextIndex))]
              rw [eventsFor_append, hevp]
              simp [eventsFor, Event.index, runEvt, failEvt, errEvt]
          · refine lifecycleAt_transfer env calls0 st _ j ?_ ?_ ?_ rfl ?_ ?_
              (h.lifecycle j hj)
            · simp only [statusAt]
              exact status_setStatus_ne st.calls st.nextIndex j Status.failed hne
            · have hne' : st.nextIndex ≠ j := Ne.symm hne
              show eventsFor (st.trace ++
                  [Event.update env.taskId st.nextIndex Status.running,
                   Event.update env.taskId st.nextIndex Status.failed,
                   Event.error env.taskId st.nextIndex (toolOf calls0 st.nextIndex)
                     (argsOf calls0 st.nextIndex)
                     (String.append "Tool not found: "
                       (toolOf calls0 st.nextIndex))]) j = eventsFor st.trace j
              rw [eventsFor_append]
              simp [eventsFor, Event.index, hne']
            · exact owners_set_other st.phases w Phase.idle Phase.idle j hw hph
                (by simp) (by simp)
            · intro hle
              show st.nextIndex + 1 ≤ j
              omega
            · intro hlt
              show j < st.nextIndex + 1
              omega
        · refine iff_of_false (by simp) ?_
          intro hall
          refine (hall st.nextIndex hiN) ?_
          simp only [statusAt]
          exact status_setStatus_self st.calls st.nextIndex Status.failed hlen
    · have hstep : step env w st
          = { st with nextIndex := st.nextIndex + 1,
                      claimLog := st.claimLog ++ [st.nextIndex],
                      phases := st.phases.set w Phase.done } := by
        rw [step_of_idle env w st hph]
        simp [claimStep, hlen, setPhase]
      rw [hstep]
      have hNle : calls0.length ≤ st.nextIndex := by
        have hcl := h.callsLen
        omega
      refine ⟨h.callsLen, ?_, h.frame, ?_, ?_, ?_, h.flagIff, h.invokedLt⟩
      · simp [List.length_set, h.phasesLen]
      · show st.claimLog ++ [st.nextIndex] = List.range (st.nextIndex + 1)
        rw [h.claimsEq, List.range_succ]
      · intro v hv
        simp only [List.length_set] at hv
        rcases eq_or_ne v w with rfl | hvw
        · rw [getD_set_self _ _ _ _ hw]
          simp only [phaseOk]
          omega
        · rw [getD_set_ne _ _ _ _ _ hvw]
          exact phaseOk_mono _ _ _ (Nat.le_succ _) _ (h.phasesOk v hv)
      · intro j hj
        refine lifecycleAt_transfer env calls0 st _ j rfl rfl ?_ rfl ?_ ?_
          (h.lifecycle j hj)
        · exact owners_set_other st.phases w Phase.idle Phase.done j hw hph
            (by simp) (by simp)
        · intro hle
          show st.nextIndex + 1 ≤ j
          omega
        · intro hlt
          show j < st.nextIndex + 1
          omega
  | invoking i =>
    have hw : w < st.phases.length := by
      by_contra hcon
      push_neg at hcon
      rw [getD_len_le _ _ _ hcon] at hph
      cases hph
    have hio := h.phasesOk w hw
    rw [hph] at hio
    simp only [phaseOk] at hio
    obtain ⟨hin, hiN⟩ := hio
    have hleni : i < st.calls.length := by
      have hcl := h.callsLen
      omega
    have howner_pos : 0 < owners st i := by
      refine countP_pos_of_getD st.phases w Phase.done _ hw ?_
      rw [hph]
      simp
    have hinfl : i < st.nextIndex ∧ owners st i = 1 ∧
        foundAt env calls0 i = true ∧ statusAt st i = Status.pending ∧
        eventsFor st.trace i = [runEvt env i] ∧ invokedCount st i = 0 := by
      rcases h.lifecycle i hiN with hu | hc | hc | hc | hc
      · exact absurd hu.2.2.2.1 (by omega)
      · exact hc
      · exact absurd hc.2.1 (by omega)
      · exact absurd hc.2.1 (by omega)
      · exact absurd hc.2.1 (by omega)
    obtain ⟨hin', how1, hfnd, hstp, hevp, hinv0⟩ := hinfl
    have how1' : st.phases.countP
        (fun p => decide (p = Phase.invoking i)) = 1 := how1
    have hinv0' : st.invokeLog.count i = 0 := hinv0
    have htool' : (callAt st.calls i).tool = toolOf calls0 i :=
      (strip_eq_at _ _ h.frame i).1
    have hargs' : (callAt st.calls i).args = argsOf calls0 i :=
      (strip_eq_at _ _ h.frame i).2
    rcases hres : (retryAt env i).result with m | res
    · have hstep : step env w st
          = { st with allSucceeded := false,
                      calls := setStatus st.calls i Status.failed,
                      trace := st.trace ++
                        [Event.update env.taskId i Status.failed,
                         Event.error env.taskId i (toolOf calls0 i)
                           (argsOf calls0 i) m],
                      invokeLog := st.invokeLog ++ [i],
                      phases := st.phases.set w Phase.idle } := by
        rw [step_of_invoking env w i st hph]
        simp [finishStep, hres, handleFailure, hg1, hg2, emit, setPhase,
          List.append_assoc, htool', hargs']
      rw [hstep]
      refine ⟨?_, ?_, ?_, h.claimsEq, ?_, ?_, ?_, ?_⟩
      · show (setStatus st.calls i Status.failed).length = calls0.length
        rw [setStatus_length]
        exact h.callsLen
      · simp [List.length_set, h.phasesLen]
      · show (setStatus st.calls i Status.failed).map stripStatus
          = calls0.map stripStatus
        rw [mapStrip_setStatus]
        exact h.frame
      · intro v hv
        simp only [List.length_set] at hv
        rcases eq_or_ne v w with rfl | hvw
        · rw [getD_set_self _ _ _ _ hw]
          simp only [phaseOk]
        · rw [getD_set_ne _ _ _ _ _ hvw]
          exact h.phasesOk v hv
      · intro j hj
        rcases eq_or_ne j i with rfl | hne
        · unfold lifecycleAt
          refine Or.inr (Or.inr (Or.inr (Or.inl
            ⟨hin', ?_, hfnd, ?_, ?_, ⟨m, hres, ?_⟩⟩)))
          · show (st.phases.set w Phase.idle).countP
              (fun p => decide (p = Phase.invoking j)) = 0
            have hleave := owners_set_leave st.phases w j Phase.idle hw hph
              (by simp)
            omega
          · show (st.invokeLog ++ [j]).count j = 1
            rw [count_append_self, hinv0']
          · simp only [statusAt]
            exact status_setStatus_self st.calls j Status.failed hleni
          · show eventsFor (st.trace ++
                [Event.update env.taskId j Status.failed,
                 Event.error env.taskId j (toolOf calls0 j) (argsOf calls0 j) m]) j
              = [runEvt env j, failEvt env j, errEvt env calls0 j m]
            rw [eventsFor_append, hevp]
            simp [eventsFor, Event.index, runEvt, failEvt, errEvt]
        · refine lifecycleAt_transfer env calls0 st _ j ?_ ?_ ?_ ?_
              (fun hx => hx) (fun hx => hx) (h.lifecycle j hj)
          · simp only [statusAt]
            exact status_setStatus_ne st.calls i j Status.failed hne
          · have hne' : i ≠ j := Ne.symm hne
            show eventsFor (st.trace ++
                [Event.update env.taskId i Status.failed,
                 Event.error env.taskId i (toolOf calls0 i) (argsOf calls0 i) m]) j
              = eventsFor st.trace j
            rw [eventsFor_append]
            simp [eventsFor, Event.index, hne']
          · exact owners_set_other st.phases w (Phase.invoking i) Phase.idle j hw
              hph (by simp only [ne_eq, Phase.invoking.injEq]; exact Ne.symm hne)
              (by simp)
          · show (st.invokeLog ++ [i]).count j = st.invokeLog.count j
            exact count_append_ne _ _ _ hne
      · refine iff_of_false (by simp) ?_
        intro hall
        refine (hall i hiN) ?_
        simp only [statusAt]
        exact status_setStatus_self st.calls i Status.failed hleni
      · intro j hjm
        rcases List.mem_append.mp hjm with hjm | hjm
        · exact h.invokedLt j hjm
        · have : j = i := by simpa using hjm
          subst this
          exact hiN
    · have hstep : step env w st
          = { st with calls := setStatus st.calls i Status.completed,
                      trace := st.trace ++
                        [Event.update env.taskId i Status.completed],
                      writes := st.writes ++
                        [⟨toolOf calls0 i, argsOf calls0 i, res, env.queryId⟩],
                      invokeLog := st.invokeLog ++ [i],
                      phases := st.phases.set w Phase.idle } := by
        rw [step_of_invoking env w i st hph]
        simp [finishStep, hres, hg1, emit, setPhase, htool', hargs']
      rw [hstep]
      refine ⟨?_, ?_, ?_, h.claimsEq, ?_, ?_, ?_, ?_⟩
      · show (setStatus st.calls i Status.completed).length = calls0.length
        rw [setStatus_length]
        exact h.callsLen
      · simp [List.length_set, h.phasesLen]
      · show (setStatus st.calls i Status.completed).map stripStatus
          = calls0.map stripStatus
        rw [mapStrip_setStatus]
        exact h.frame
      · intro v hv
        simp only [List.length_set] at hv
        rcases eq_or_ne v w with rfl | hvw
        · rw [getD_set_self _ _ _ _ hw]
          simp only [phaseOk]
        · rw [getD_set_ne _ _ _ _ _ hvw]
          exact h.phasesOk v hv
      · intro j hj
        rcases eq_or_ne j i with rfl | hne
        · unfold lifecycleAt
          refine Or.inr (Or.inr (Or.inl
            ⟨hin', ?_, hfnd, ?_, ⟨res, hres⟩, ?_, ?_⟩))
          · show (st.phases.set w Phase.idle).countP
              (fun p => decide (p = Phase.invoking j)) = 0
            have hleave := owners_set_leave st.phases w j Phase.idle hw hph
              (by simp)
            omega
          · show (st.invokeLog ++ [j]).count j = 1
            rw [count_append_self, hinv0']
          · simp only [statusAt]
            exact status_setStatus_self st.calls j Status.completed hleni
          · show eventsFor (st.trace ++
                [Event.update env.taskId j Status.completed]) j
              = [runEvt env j, doneEvt env j]
            rw [eventsFor_append, hevp]
            simp [eventsFor, Event.index, runEvt, doneEvt]
        · refine lifecycleAt_transfer env calls0 st _ j ?_ ?_ ?_ ?_
            (fun hx => hx) (fun hx => hx) (h.lifecycle j hj)
          · simp only [statusAt]
            exact status_setStatus_ne st.calls i j Status.completed hne
          · have hne' : i ≠ j := Ne.symm hne
            show eventsFor (st.trace ++
                [Event.update env.taskId i Status.completed]) j
              = eventsFor st.trace j
            rw [eventsFor_append]
            simp [eventsFor, Event.index, hne']
          · exact owners_set_other st.phases w (Phase.invoking i) Phase.idle j hw
              hph (by simp only [ne_eq, Phase.invoking.injEq]; exact Ne.symm hne)
              (by simp)
          · show (st.invokeLog ++ [i]).count j = st.invokeLog.count j
            exact count_append_ne _ _ _ hne
      · constructor
        · intro hT j hj
          rcases eq_or_ne j i with rfl | hne
          · simp only [statusAt]
            rw [status_setStatus_self st.calls j Status.completed hleni]
            simp
          · have hold := h.flagIff.mp hT j hj
            simp only [statusAt]
            rw [status_setStatus_ne st.calls i j Status.completed hne]
            exact hold
        · intro hall
          refine h.flagIff.mpr ?_
          intro j hj
          rcases eq_or_ne j i with rfl | hne
          · rw [statusAt] at hstp ⊢
            rw [hstp]
            simp
          · have hx := hall j hj
            simp only [statusAt] at hx
            rw [status_setStatus_ne st.calls i j Status.completed hne] at hx
            exact hx
      · intro j hjm
        rcases List.mem_append.mp hjm with hjm | hjm
        · exact h.invokedLt j hjm
        · have : j = i := by simpa using hjm
          subst this
          exact hiN

/-- C4 witness: a singleton-worker run over the empty list settles in one
step and resolves `true` with empty trace and writes. -/
theorem executeTools_empty_list_trivially_true_witness :
    terminated (run sampleEnv (initState [] none) [0]) = true
    ∧ executeToolsRun sampleEnv (some []) none [0]
        = some ⟨ExecOutcome.resolved true, [], [], []⟩ :=
  ⟨by decide,
    (executeTools_empty_list_trivially_true sampleEnv none [0] (by decide)).2.1⟩

theorem inv_init (env : Env) (calls0 : List ToolCall) (maxOpt : Option Nat)
    (hpend : ∀ c ∈ calls0, c.status = Status.pending) :
    Inv env calls0 maxOpt (initState calls0 maxOpt) := by
  refine ⟨rfl, ?_, rfl, rfl, ?_, ?_, ?_, ?_⟩
  · simp [initState]
  · intro v hv
    simp only [initState, List.length_replicate] at hv
    show phaseOk calls0.length 0
      ((List.replicate (poolSize maxOpt calls0.length) Phase.idle).getD v
        Phase.done)
    rw [getD_replicate_self _ _ _ _ hv]
    simp only [phaseOk]
  · intro j hj
    unfold lifecycleAt
    left
    refine ⟨Nat.zero_le _, ?_, rfl, ?_, rfl⟩
    · show (callAt calls0 j).status = Status.pending
      exact hpend _ (getD_mem calls0 j _ hj)
    · show (List.replicate (poolSize maxOpt calls0.length) Phase.idle).countP
        (fun p => decide (p = Phase.invoking j)) = 0
      exact countP_replicate_false _ _ _ (by simp)
  · refine iff_of_true rfl ?_
    intro j hj
    show (callAt calls0 j).status ≠ Status.failed
    have hps : (callAt calls0 j).status = Status.pending :=
      hpend _ (getD_mem calls0 j _ hj)
    rw [hps]
    simp
  · intro j hjm
    exact absurd hjm (List.not_mem_nil j)

theorem inv_run (env : Env) (calls0 : List ToolCall) (maxOpt : Option Nat)
    (hg : goodEnv env) (hpend : ∀ c ∈ calls0, c.status = Status.pending)
    (sched : List Nat) :
    Inv env calls0 maxOpt (run env (initState calls0 maxOpt) sched) :=
  @run_ind (Inv env calls0 maxOpt) env sched _
    (inv_init env calls0 maxOpt hpend)
    (fun s v hs => inv_step env calls0 maxOpt hg s v hs)

theorem inv_no_aborted (env : Env) (calls0 : List ToolCall) (maxOpt : Option Nat)
    (st : ExecState) (h : Inv env calls0 maxOpt st) :
    st.phases.any (fun p => decide (p = Phase.aborted)) = false := by
  rw [List.any_eq_false]
  refine forall_mem_of_getD _ Phase.done _ ?_
  intro v hv
  have hOk := h.phasesOk v hv
  revert hOk
  cases st.phases.getD v Phase.done <;> simp [phaseOk]

theorem inv_terminated_done (env : Env) (calls0 : List ToolCall)
    (maxOpt : Option Nat) (st : ExecState) (h : Inv env calls0 maxOpt st)
    (hterm : terminated st = true) :
    ∀ v, v < st.phases.length → st.phases.getD v Phase.done = Phase.done := by
  intro v hv
  have hst : isSettled (st.phases.getD v Phase.done) = true := by
    rw [terminated, List.all_eq_true] at hterm
    exact hterm _ (getD_mem _ _ _ hv)
  have hOk := h.phasesOk v hv
  revert hOk hst
  cases st.phases.getD v Phase.done <;> simp [isSettled, phaseOk]

theorem inv_terminated_cover (env : Env) (calls0 : List ToolCall)
    (maxOpt : Option Nat) (st : ExecState) (h : Inv env calls0 maxOpt st)
    (hterm : terminated st = true) : calls0.length < st.nextIndex := by
  have hpos : 0 < st.phases.length := by
    rw [h.phasesLen]
    have := Nat.le_max_left 1 (min (maxOpt.getD 3) calls0.length)
    simp only [poolSize]
    omega
  have hd := inv_terminated_done env calls0 maxOpt st h hterm 0 hpos
  have hOk := h.phasesOk 0 hpos
  rw [hd] at hOk
  simpa [phaseOk] using hOk

theorem setStatus_ge (cs : List ToolCall) (k : Nat) (s : Status)
    (h : cs.length ≤ k) : setStatus cs k s = cs := by
  induction cs generalizing k with
  | nil => rfl
  | cons c cs ih =>
    cases k with
    | zero => simp at h
    | succ n =>
      simp only [setStatus]
      rw [ih n (by simpa using h)]

theorem status_setStatus_pending (cs : List ToolCall) (k : Nat) (s : Status)
    (hs : s ≠ Status.pending) (i : Nat)
    (hp : (callAt (setStatus cs k s) i).status = Status.pending) :
    (callAt cs i).status = Status.pending := by
  rcases eq_or_ne i k with rfl | hne
  · by_cases hk : i < cs.length
    · rw [status_setStatus_self _ _ _ hk] at hp
      exact absurd hp hs
    · rw [setStatus_ge _ _ _ (by omega)] at hp
      exact hp
  · rw [status_setStatus_ne _ _ _ _ hne] at hp
    exact hp

theorem step_status_pending_mono (env : Env) (w : Nat) (st : ExecState)
    (i : Nat) (hp : statusAt (step env w st) i = Status.pending) :
    statusAt st i = Status.pending := by
  cases hph : st.phases.getD w Phase.done with
  | done =>
    rw [step_of_done env w st hph] at hp
    exact hp
  | aborted =>
    rw [step_of_aborted env w st hph] at hp
    exact hp
  | idle =>
    rw [step_of_idle env w st hph] at hp
    simp only [claimStep, handleFailure, emit, setPhase, statusAt] at hp
    split_ifs at hp <;>
      first
        | exact hp
        | exact status_setStatus_pending _ _ _ (by simp) i hp
  | invoking k =>
    rw [step_of_invoking env w k st hph] at hp
    rcases hres : (retryAt env k).result with m | res <;>
      simp only [finishStep, hres, handleFailure, emit, setPhase, statusAt]
        at hp <;>
      split_ifs at hp <;>
      first
        | exact hp
        | exact status_setStatus_pending _ _ _ (by simp) i hp
        | exact status_setStatus_pending _ _ _ (by simp) i
            (status_setStatus_pending _ _ _ (by simp) i hp)

theorem run_status_pending_mono (env : Env) (st : ExecState) (sched : List Nat)
    (i : Nat) (hp : statusAt (run env st sched) i = Status.pending) :
    statusAt st i = Status.pending := by
  induction sched generalizing st with
  | nil => exact hp
  | cons w ws ih =>
    rw [run_cons] at hp
    exact step_status_pending_mono env w st i (ih _ hp)

theorem inv_status_det (env : Env) (calls0 : List ToolCall) (maxOpt : Option Nat)
    (st : ExecState) (h : Inv env calls0 maxOpt st) (i : Nat)
    (hi : i < calls0.length) (hnp : statusAt st i ≠ Status.pending) :
    statusAt st i = expectedFinal env calls0 i := by
  rcases h.lifecycle i hi with hu | hc | hc | hc | hc
  · exact absurd hu.2.1 hnp
  · exact absurd hc.2.2.2.1 hnp
  · obtain ⟨r, hr⟩ := hc.2.2.2.2.1
    rw [hc.2.2.2.2.2.1]
    simp [expectedFinal, hc.2.2.1, hr]
  · obtain ⟨m, hm, -⟩ := hc.2.2.2.2.2
    rw [hc.2.2.2.2.1]
    simp [expectedFinal, hc.2.2.1, hm]
  · rw [hc.2.2.2.2.1]
    simp [expectedFinal, hc.2.2.1]

/-- C1: under non-throwing observers, a terminated run has claimed each value
of the shared counter exactly once (the claim log is duplicate-free) and no
index below the call count is skipped; no call's capability is started twice,
and every resolvable call's capability is started exactly once; the claim
counter never decreases at any step; and an idle worker whose claim finds the
counter at or past the call count exits (`done`). -/
theorem executeTools_claims_each_index_exactly_once (env : Env)
    (calls0 : List ToolCall) (maxOpt : Option Nat) (sched : List Nat)
    (hg : goodEnv env) (hpend : ∀ c ∈ calls0, c.status = Status.pending)
    (hterm : terminated (run env (initState calls0 maxOpt) sched) = true) :
    (run env (initState calls0 maxOpt) sched).claimLog.Nodup
    ∧ (∀ i, i < calls0.length →
        i ∈ (run env (initState calls0 maxOpt) sched).claimLog)
    ∧ (∀ i, invokedCount (run env (initState calls0 maxOpt) sched) i ≤ 1)
    ∧ (∀ i, i < calls0.length → foundAt env calls0 i = true →
        invokedCount (run env (initState calls0 maxOpt) sched) i = 1)
    ∧ (∀ st w, st.nextIndex ≤ (step env w st).nextIndex)
    ∧ (∀ st w, w < st.phases.length →
        st.phases.getD w Phase.done = Phase.idle →
        st.calls.length ≤ st.nextIndex →
        (step env w st).phases.getD w Phase.done = Phase.done) := by
  have hinv := inv_run env calls0 maxOpt hg hpend sched
  have hcov : calls0.length < (run env (initState calls0 maxOpt) sched).nextIndex :=
    inv_terminated_cover env calls0 maxOpt _ hinv hterm
  refine ⟨?_, ?_, ?_, ?_, ?_, ?_⟩
  · rw [hinv.claimsEq]
    exact List.nodup_range _
  · intro i hi
    rw [hinv.claimsEq, List.mem_range]
    omega
  · intro i
    by_cases hi : i < calls0.length
    · rcases hinv.lifecycle i hi with hu | hc | hc | hc | hc
      · have := hu.2.2.2.2
        omega
      · have := hc.2.2.2.2.2
        omega
      · have := hc.2.2.2.1
        omega
      · have := hc.2.2.2.1
        omega
      · have := hc.2.2.2.1
        omega
    · have hz : invokedCount (run env (initState calls0 maxOpt) sched) i = 0 := by
        apply List.count_eq_zero_of_not_mem
        intro hmem
        exact hi (hinv.invokedLt i hmem)
      omega
  · intro i hi hf
    rcases hinv.lifecycle i hi with hu | hc | hc | hc | hc
    · have := hu.1
      omega
    · exfalso
      have how := hc.2.1
      have hpos : 0 < owners (run env (initState calls0 maxOpt) sched) i := by
        omega
      obtain ⟨p, hpmem, hp⟩ := List.countP_pos_iff.mp hpos
      rw [terminated, List.all_eq_true] at hterm
      have hsett := hterm _ hpmem
      simp only [decide_eq_true_eq] at hp
      subst hp
      simp [isSettled] at hsett
    · exact hc.2.2.2.1
    · exact hc.2.2.2.1
    · exact absurd hf (by rw [hc.2.2.1]; simp)
  · intro st' w'
    exact step_nextIndex_mono env w' st'
  · intro st' w' hw' hidle hge
    rw [step_of_idle env w' st' hidle]
    have hcond : ¬ (st'.nextIndex < st'.calls.length) := by omega
    simp only [claimStep, hcond, if_false, setPhase]
    rw [getD_set_self _ _ _ _ hw']

/-- C1 witness: the single-call list with a resolvable capability under a
singleton pool, run to termination with schedule `[0, 0, 0]`. -/
theorem executeTools_claims_each_index_exactly_once_witness :
    (∀ c ∈ sampleCalls, c.status = Status.pending)
    ∧ terminated (run sampleEnv (initState sampleCalls none) [0, 0, 0]) = true
    ∧ (run sampleEnv (initState sampleCalls none) [0, 0, 0]).claimLog.Nodup :=
  ⟨by decide, by decide,
    (executeTools_claims_each_index_exactly_once sampleEnv sampleCalls none
      [0, 0, 0] ⟨fun _ _ => rfl, fun _ => rfl⟩ (by decide) (by decide)).1⟩

/-- C2: under non-throwing observers, a terminated `executeTools` run settles
by resolving (never rejecting) the boolean aggregate flag, and that flag is
`true` exactly when no call of the list has status `failed`. -/
theorem executeTools_true_iff_no_failure (env : Env) (calls0 : List ToolCall)
    (maxOpt : Option Nat) (sched : List Nat) (hg : goodEnv env)
    (hpend : ∀ c ∈ calls0, c.status = Status.pending)
    (hterm : terminated (run env (initState calls0 maxOpt) sched) = true) :
    executeToolsRun env (some calls0) maxOpt sched
      = some ⟨ExecOutcome.resolved
            (run env (initState calls0 maxOpt) sched).allSucceeded,
          (run env (initState calls0 maxOpt) sched).trace,
          (run env (initState calls0 maxOpt) sched).writes,
          (run env (initState calls0 maxOpt) sched).calls⟩
    ∧ ((run env (initState calls0 maxOpt) sched).allSucceeded = true ↔
        ∀ i, i < calls0.length →
          statusAt (run env (initState calls0 maxOpt) sched) i
            ≠ Status.failed) := by
  have hinv := inv_run env calls0 maxOpt hg hpend sched
  have hnoab := inv_no_aborted env calls0 maxOpt _ hinv
  constructor
  · simp only [executeToolsRun, hterm, if_true]
    rw [outcomeOf, hnoab]
    simp
  · exact hinv.flagIff

/-- C2 witness: the sample single-call run terminates, resolves, and its flag
is `true` iff no call failed. -/
theorem executeTools_true_iff_no_failure_witness :
    (∀ c ∈ sampleCalls, c.status = Status.pending)
    ∧ terminated (run sampleEnv (initState sampleCalls none) [0, 0, 0]) = true
    ∧ ((run sampleEnv (initState sampleCalls none) [0, 0, 0]).allSucceeded = true
        ↔ ∀ i, i < sampleCalls.length →
          statusAt (run sampleEnv (initState sampleCalls none) [0, 0, 0]) i
            ≠ Status.failed) :=
  ⟨by decide, by decide,
    (executeTools_true_iff_no_failure sampleEnv sampleCalls none [0, 0, 0]
      ⟨fun _ _ => rfl, fun _ => rfl⟩ (by decide) (by decide)).2⟩

/-- C7: under non-throwing observers, every call is always at a well-formed
point of the per-call state machine (pending-unclaimed with no events; running
in flight after exactly the `running` update; completed after exactly
`running` then `completed`; failed after exactly `running`, the `failed`
update, then `onToolCallError` — so within one call the `running` event
precedes its terminal event and the `failed` update precedes the error
callback); a call that has left `pending` never changes status again along any
schedule extension; and at termination every call is terminal in exactly one
of the two ways with its exact event subtrace. -/
theorem executeTools_call_state_machine (env : Env) (calls0 : List ToolCall)
    (maxOpt : Option Nat) (hg : goodEnv env)
    (hpend : ∀ c ∈ calls0, c.status = Status.pending) :
    (∀ sched i, i < calls0.length →
        lifecycleAt env calls0 (run env (initState calls0 maxOpt) sched) i)
    ∧ (∀ sched ext i, i < calls0.length →
        statusAt (run env (initState calls0 maxOpt) sched) i ≠ Status.pending →
        statusAt (run env (initState calls0 maxOpt) (sched ++ ext)) i
          = statusAt (run env (initState calls0 maxOpt) sched) i)
    ∧ (∀ sched i, i < calls0.length →
        terminated (run env (initState calls0 maxOpt) sched) = true →
        (statusAt (run env (initState calls0 maxOpt) sched) i
            = Status.completed ∧
          eventsFor (run env (initState calls0 maxOpt) sched).trace i
            = [runEvt env i, doneEvt env i])
        ∨ (statusAt (run env (initState calls0 maxOpt) sched) i
            = Status.failed ∧
          ∃ m, eventsFor (run env (initState calls0 maxOpt) sched).trace i
            = [runEvt env i, failEvt env i, errEvt env calls0 i m])) := by
  refine ⟨?_, ?_, ?_⟩
  · intro sched i hi
    exact (inv_run env calls0 maxOpt hg hpend sched).lifecycle i hi
  · intro sched ext i hi hnp
    have h1 := inv_run env calls0 maxOpt hg hpend sched
    have h2 := inv_run env calls0 maxOpt hg hpend (sched ++ ext)
    have hd1 := inv_status_det env calls0 maxOpt _ h1 i hi hnp
    have hnp2 : statusAt (run env (initState calls0 maxOpt) (sched ++ ext)) i
        ≠ Status.pending := by
      intro hp
      apply hnp
      rw [run_append] at hp
      exact run_status_pending_mono env _ ext i hp
    have hd2 := inv_status_det env calls0 maxOpt _ h2 i hi hnp2
    rw [hd1, hd2]
  · intro sched i hi hterm
    have hinv := inv_run env calls0 maxOpt hg hpend sched
    have hcov := inv_terminated_cover env calls0 maxOpt _ hinv hterm
    rcases hinv.lifecycle i hi with hu | hc | hc | hc | hc
    · have := hu.1
      omega
    · exfalso
      have how := hc.2.1
      have hpos : 0 < owners (run env (initState calls0 maxOpt) sched) i := by
        omega
      obtain ⟨p, hpmem, hp⟩ := List.countP_pos_iff.mp hpos
      rw [terminated, List.all_eq_true] at hterm
      have hsett := hterm _ hpmem
      simp only [decide_eq_true_eq] at hp
      subst hp
      simp [isSettled] at hsett
    · exact Or.inl ⟨hc.2.2.2.2.2.1, hc.2.2.2.2.2.2⟩
    · obtain ⟨m, -, hev⟩ := hc.2.2.2.2.2
      exact Or.inr ⟨hc.2.2.2.2.1, m, hev⟩
    · exact Or.inr ⟨hc.2.2.2.2.1, _, hc.2.2.2.2.2⟩

/-- C7 witness: the sample single-call run is at a well-formed lifecycle point
after the full schedule. -/
theorem executeTools_call_state_machine_witness :
    (∀ c ∈ sampleCalls, c.status = Status.pending)
    ∧ lifecycleAt sampleEnv sampleCalls
        (run sampleEnv (initState sampleCalls none) [0, 0, 0]) 0 :=
  ⟨by decide,
    (executeTools_call_state_machine sampleEnv sampleCalls none
      ⟨fun _ _ => rfl, fun _ => rfl⟩ (by decide)).1 [0, 0, 0] 0 (by decide)⟩

/-- C8 counterexample: with an observer that throws on the `running` update,
one step of the single-worker run over the sample call aborts the worker and
the whole `executeTools` settles rejected — refuting the claim that a
throwing observer never aborts a worker or causes `executeTools` to reject. -/
theorem executeTools_throwing_callback_rejects_cex :
    (run throwingEnv (initState sampleCalls none) [0]).phases.getD 0 Phase.done
        = Phase.aborted
    ∧ executeToolsRun throwingEnv (some sampleCalls) none [0]
        = some ⟨ExecOutcome.rejected,
            [Event.update "task-1" 0 Status.running], [], sampleCalls⟩ := by
  exact ⟨by decide, by decide⟩

/-- C8 amended: callback invocations are not defensively isolated from the
worker's control flow: an observer throw from the `running` update (which the
source fires outside the `try`), from the `failed` update, or from
`onToolCallError` (both fired inside the `catch` branch) escapes the worker
body and aborts the worker, and an aborted worker makes `executeTools`
reject; only a throw from the `completed` update is caught — by the call's
own `catch` branch, which then records that call as `failed` while the worker
itself survives. -/
theorem callbacks_not_isolated (env : Env) (st : ExecState) (w : Nat)
    (hw : w < st.phases.length) :
    (st.phases.getD w Phase.done = Phase.idle →
      st.nextIndex < st.calls.length →
      env.cbUpdateThrows st.nextIndex Status.running = true →
      (step env w st).phases.getD w Phase.done = Phase.aborted)
    ∧ (∀ i tool args msg, env.cbUpdateThrows i Status.failed = true →
        (handleFailure env w i tool args msg st).phases.getD w Phase.done
          = Phase.aborted)
    ∧ (∀ i tool args msg, env.cbUpdateThrows i Status.failed = false →
        env.cbErrorThrows i = true →
        (handleFailure env w i tool args msg st).phases.getD w Phase.done
          = Phase.aborted)
    ∧ (∀ i res, st.phases.getD w Phase.done = Phase.invoking i →
        i < st.calls.length →
        (retryAt env i).result = Except.ok res →
        env.cbUpdateThrows i Status.completed = true →
        env.cbUpdateThrows i Status.failed = false →
        env.cbErrorThrows i = false →
        (step env w st).phases.getD w Phase.done = Phase.idle ∧
          statusAt (step env w st) i = Status.failed)
    ∧ (st.phases.getD w Phase.done = Phase.aborted →
        outcomeOf st = ExecOutcome.rejected) := by
  refine ⟨?_, ?_, ?_, ?_, ?_⟩
  · intro hidle hlt hthrow
    rw [step_of_idle env w st hidle]
    simp only [claimStep, emit, setPhase, hlt, if_true, hthrow]
    rw [getD_set_self _ _ _ _ hw]
  · intro i tool args msg hthrow
    simp only [handleFailure, emit, setPhase, hthrow, if_true]
    rw [getD_set_self _ _ _ _ hw]
  · intro i tool args msg hnothrow hthrow
    simp only [handleFailure, emit, setPhase, hnothrow, hthrow, if_true,
      Bool.false_eq_true, if_false]
    rw [getD_set_self _ _ _ _ hw]
  · intro i res hinv hilen hres hcthrow hfthrow hethrow
    rw [step_of_invoking env w i st hinv]
    simp only [finishStep, hres, handleFailure, emit, setPhase, hcthrow,
      hfthrow, hethrow, if_true, Bool.false_eq_true, if_false]
    constructor
    · rw [getD_set_self _ _ _ _ hw]
    · simp only [statusAt]
      rw [status_setStatus_self]
      rw [setStatus_length]
      exact hilen
  · intro habort
    have hany : st.phases.any (fun p => decide (p = Phase.aborted)) = true := by
      rw [List.any_eq_true]
      exact ⟨_, getD_mem _ _ _ hw, by rw [habort]; simp⟩
    rw [outcomeOf, hany]
    simp

/-- C8 amended witness: the throwing-observer environment at the initial
single-call state satisfies the hypotheses, and the step aborts worker 0. -/
theorem callbacks_not_isolated_witness :
    ((initState sampleCalls none).phases.getD 0 Phase.done = Phase.idle
      ∧ (initState sampleCalls none).nextIndex
          < (initState sampleCalls none).calls.length
      ∧ throwingEnv.cbUpdateThrows (initState sampleCalls none).nextIndex
          Status.running = true)
    ∧ (step throwingEnv 0 (initState sampleCalls none)).phases.getD 0 Phase.done
        = Phase.aborted :=
  ⟨⟨by decide, by decide, by decide⟩,
    (callbacks_not_isolated throwingEnv (initState sampleCalls none) 0
      (by decide)).1 (by decide) (by decide) (by decide)⟩

end Dexter
